import Mathlib

/-! Asset management system: the indexed asset store and the flat database.

A shallow embedding of `AssetManager.h` / `AssetManager.cpp`.

* `AssetType`, `AssetMetadata`, `Asset` follow the C++ declarations.
* A heap object is identified by its address (`Ptr`).  Every `Asset` is created by
  `std::make_unique` inside `AssetManager::AddAsset`; the embedding numbers the allocations,
  so the address of a record is its allocation serial number: two distinct allocations never
  share an address, and a smaller address means an earlier insertion.
* `std::vector<std::unique_ptr<Asset>> assets_` is the list of the live heap objects, in
  vector order.
* `std::unordered_map<std::string, std::vector<Asset*>> assetsByKeyword_` is an association
  list from keyword to bucket.  The manager never iterates over the map, so the position of a
  key in the association list is never observed.
-/

namespace AssetSystem

/-- Supported asset types (`enum class AssetType`). -/
inductive AssetType where
  | Texture
  | Audio
  | Model
deriving DecidableEq, Repr

/-- Metadata for an asset (`struct AssetMetadata`). -/
structure AssetMetadata where
  name : String
  path : String
  type : AssetType
  keywords : List String
  category : String
  version : Int
deriving DecidableEq, Repr

/-- Address of a heap-allocated `Asset`. -/
abbrev Ptr := Nat

/-- The class `Asset`: metadata plus the list of related assets (non-owning pointers).
`addr` is the address of the object itself, i.e. what `unique_ptr::get()` returns. -/
structure Asset where
  addr : Ptr
  metadata_ : AssetMetadata
  relatedAssets_ : List Ptr
deriving DecidableEq, Repr

/-- Method `Asset::GetMetadata`. -/
def Asset.GetMetadata (a : Asset) : AssetMetadata := a.metadata_

/-- Method `Asset::AddRelatedAsset`: `relatedAssets_.push_back(asset)`. -/
def Asset.AddRelatedAsset (a : Asset) (asset : Ptr) : Asset :=
  { a with relatedAssets_ := a.relatedAssets_ ++ [asset] }

/-- Method `Asset::GetRelatedAssets`. -/
def Asset.GetRelatedAssets (a : Asset) : List Ptr := a.relatedAssets_

/-- The type of `assetsByKeyword_`: keyword ↦ bucket of record addresses. -/
abbrev KeywordMap := List (String × List Ptr)

/-- Member `std::unordered_map::find`: the bucket stored under `k`, if the key exists. -/
def KeywordMap.find : KeywordMap → String → Option (List Ptr)
  | [], _ => none
  | (k', v) :: rest, k => if k' = k then some v else KeywordMap.find rest k

/-- The statement pair `auto& b = m[k]; b = f b`: `operator[]` yields a reference to the bucket under `k`,
default-constructing an empty bucket when the key is absent; the bucket is then updated in
place by `f`. -/
def KeywordMap.update : KeywordMap → String → (List Ptr → List Ptr) → KeywordMap
  | [], k, f => [(k, f [])]
  | (k', v) :: rest, k, f =>
    if k' = k then (k', f v) :: rest else (k', v) :: KeywordMap.update rest k f

/-- The key set of the map, as a list. -/
def KeywordMap.keys (m : KeywordMap) : List String := m.map Prod.fst

/-- The class `AssetManager`.  `nextAddr` is the allocator state: the address the next
`std::make_unique<Asset>` returns. -/
structure AssetManager where
  assets_ : List Asset
  assetsByKeyword_ : KeywordMap
  nextAddr : Ptr
deriving DecidableEq, Repr

namespace AssetManager

/-- A default-constructed manager. -/
def empty : AssetManager := { assets_ := [], assetsByKeyword_ := [], nextAddr := 0 }

/-- Method `AssetManager::AddAsset`: allocate the record, `push_back` it to `assets_`, then for each
keyword (in order, with repetitions) `assetsByKeyword_[keyword].push_back(assets_.back().get())`. -/
def AddAsset (m : AssetManager) (metadata : AssetMetadata) : AssetManager :=
  let asset : Asset := { addr := m.nextAddr, metadata_ := metadata, relatedAssets_ := [] }
  { assets_ := m.assets_ ++ [asset]
    assetsByKeyword_ :=
      metadata.keywords.foldl
        (fun idx keyword => idx.update keyword (fun assetList => assetList ++ [asset.addr]))
        m.assetsByKeyword_
    nextAddr := m.nextAddr + 1 }

/-- The inner loop of `RemoveAsset`: for each keyword of the record (in order, with
repetitions), erase-remove every occurrence of the record's address from
`assetsByKeyword_[keyword]`. -/
def purge (idx : KeywordMap) (a : Asset) : KeywordMap :=
  a.GetMetadata.keywords.foldl
    (fun idx keyword => idx.update keyword (fun assetList => assetList.filter (fun p => p != a.addr)))
    idx

/-- The outer loop of `RemoveAsset` over `assets_`: at the first record whose name matches,
purge the index, erase that record from the vector and return; records before it are kept.
Returns the new vector and the new index. -/
def removeScan (name : String) (idx : KeywordMap) : List Asset → List Asset × KeywordMap
  | [] => ([], idx)
  | a :: rest =>
    if a.GetMetadata.name = name then
      (rest, purge idx a)
    else
      ((removeScan name idx rest).1.cons a, (removeScan name idx rest).2)

/-- Method `AssetManager::RemoveAsset`. -/
def RemoveAsset (m : AssetManager) (name : String) : AssetManager :=
  { assets_ := (removeScan name m.assetsByKeyword_ m.assets_).1
    assetsByKeyword_ := (removeScan name m.assetsByKeyword_ m.assets_).2
    nextAddr := m.nextAddr }

/-- Method `AssetManager::GetAssetsByType`: scan `assets_`, `push_back` the address of each record of
the given type. -/
def GetAssetsByType (m : AssetManager) (type : AssetType) : List Ptr :=
  m.assets_.foldl
    (fun assetsOfType asset =>
      if asset.GetMetadata.type = type then assetsOfType ++ [asset.addr] else assetsOfType)
    []

/-- Method `AssetManager::GetAssetsByKeyword`: a copy of the bucket, or an empty vector when the key
is not in the map. -/
def GetAssetsByKeyword (m : AssetManager) (keyword : String) : List Ptr :=
  match m.assetsByKeyword_.find keyword with
  | some bucket => bucket
  | none => []

/-- The loop of `GetAssetByName` over `assets_`: the first record with that name, i.e. the
object the returned pointer points to. -/
def nameScan (name : String) : List Asset → Option Asset
  | [] => none
  | a :: rest => if a.GetMetadata.name = name then some a else nameScan name rest

/-- Method `AssetManager::GetAssetByName`: address of the first record with that name (`asset.get()`),
or `none` for `nullptr`. -/
def GetAssetByName (m : AssetManager) (name : String) : Option Ptr :=
  (nameScan name m.assets_).map Asset.addr

/-- Dereference a pointer: the live heap object at that address, if there is one. -/
def deref (m : AssetManager) (p : Ptr) : Option Asset :=
  m.assets_.find? (fun a => a.addr == p)

/-- Method `AssetManager::GetRelatedAssets`: resolve the name with `GetAssetByName`; on `nullptr`
return the empty vector; otherwise copy the relation list of the record found, element by
element. -/
def GetRelatedAssets (m : AssetManager) (name : String) : List Ptr :=
  match nameScan name m.assets_ with
  | none => []
  | some asset =>
    asset.GetRelatedAssets.foldl (fun relatedAssets related => relatedAssets ++ [related]) []

/-- Calling a mutating member function `f` on the heap object at address `p`. -/
def mutateAt (m : AssetManager) (p : Ptr) (f : Asset → Asset) : AssetManager :=
  { m with assets_ := m.assets_.map (fun a => if a.addr = p then f a else a) }

/-- The names `main` prints for the pointers a query returned: it evaluates
`asset->GetMetadata().name` for every returned pointer, in order.  An entry is `none` where
the pointer designates no live record (the dereference has no defined result). -/
def names (m : AssetManager) (ps : List Ptr) : List (Option String) :=
  ps.map (fun p => (m.deref p).map (fun a => a.GetMetadata.name))

/-- A mutating call on the manager. -/
inductive Op where
  | add (metadata : AssetMetadata)
  | remove (name : String)
deriving DecidableEq, Repr

/-- Perform one call. -/
def step (m : AssetManager) : Op → AssetManager
  | .add metadata => m.AddAsset metadata
  | .remove name => m.RemoveAsset name

/-- Perform a sequence of calls, left to right. -/
def runFrom (m : AssetManager) (ops : List Op) : AssetManager := ops.foldl step m

/-- The manager after a sequence of calls on a default-constructed manager. -/
def run (ops : List Op) : AssetManager := runFrom empty ops

/-- The bucket a lookup of `k` yields: the stored bucket, empty when the key is absent. -/
def bucket (idx : KeywordMap) (k : String) : List Ptr :=
  match idx.find k with
  | some b => b
  | none => []

/-- What a record contributes to the bucket of keyword `k`: its address, once per occurrence
of `k` in its keyword list. -/
def entries (k : String) (a : Asset) : List Ptr :=
  List.replicate (a.GetMetadata.keywords.count k) a.addr

/-- The state invariant of the manager: addresses of live records are below the allocator
mark and strictly increasing along `assets_`, and every bucket holds exactly the entries of
the live records, in vector order. -/
structure Inv (m : AssetManager) : Prop where
  below : ∀ a ∈ m.assets_, a.addr < m.nextAddr
  sorted : (m.assets_.map Asset.addr).Pairwise (fun x y => x < y)
  index : ∀ k, bucket m.assetsByKeyword_ k = m.assets_.flatMap (entries k)

/-- The number of live records carrying `name`. -/
def nameCount (m : AssetManager) (name : String) : Nat :=
  (m.assets_.filter (fun a => a.GetMetadata.name = name)).length

/-- The metadata of the built-in scenario of `main`. -/
def textureMetadata : AssetMetadata :=
  ⟨"Texture1", "Textures/Texture1.png", .Texture, ["background", "game"], "Game Assets", 1⟩

/-- The metadata of the built-in scenario of `main`. -/
def audioMetadata : AssetMetadata :=
  ⟨"Audio1", "Audio/Audio1.wav", .Audio, ["background", "game"], "Game Assets", 1⟩

/-- The metadata of the built-in scenario of `main`. -/
def modelMetadata : AssetMetadata :=
  ⟨"Model1", "Models/Model1.obj", .Model, ["3d", "game"], "Game Assets", 1⟩

/-- The manager of `main` after its three `AddAsset` calls. -/
def scenarioManager : AssetManager :=
  run [.add textureMetadata, .add audioMetadata, .add modelMetadata]

/-- A record named "A" that lists the keyword "x" twice. -/
def firstA : AssetMetadata := ⟨"A", "a1.png", .Texture, ["x", "x"], "c", 1⟩

/-- A second record that is also named "A". -/
def secondA : AssetMetadata := ⟨"A", "a2.wav", .Audio, ["y"], "c", 2⟩

/-- A record named "B". -/
def recordB : AssetMetadata := ⟨"B", "b.obj", .Model, ["x"], "c", 1⟩

/-- A manager holding two records that are both named "A" (addresses 0 and 1). -/
def twoNamedA : AssetManager := run [.add firstA, .add secondA]

/-- A manager holding "A" (address 0) and "B" (address 1), after `AddRelatedAsset` was called
on "A" with the pointer to "B". -/
def aRelatedToB : AssetManager :=
  (run [.add firstA, .add recordB]).mutateAt 0 (fun a => a.AddRelatedAsset 1)

/-- Whether no `AddAsset` of the sequence uses a name that a live record carries at the time
of the call, when the sequence is run from state `m`. -/
def freshAdds (m : AssetManager) : List Op → Bool
  | [] => true
  | .add metadata :: rest =>
    (m.GetAssetByName metadata.name).isNone && freshAdds (m.AddAsset metadata) rest
  | .remove name :: rest => freshAdds (m.RemoveAsset name) rest

/-- The metadata behind the pointers a query returned: `asset->GetMetadata()` for every
returned pointer, in order.  An entry is `none` where the pointer designates no live record
(the dereference has no defined result). -/
def metadataOf (m : AssetManager) (ps : List Ptr) : List (Option AssetMetadata) :=
  ps.map (fun p => (m.deref p).map (fun a => a.GetMetadata))

/-- The keywords of all records the calls of the sequence insert. -/
def insertedKeywords : List Op → List String
  | [] => []
  | .add metadata :: rest => metadata.keywords ++ insertedKeywords rest
  | .remove _ :: rest => insertedKeywords rest

end AssetManager

/-- The class `AssetDatabase`: `std::unordered_map<std::string, AssetMetadata> assets` as an
association list.  The standard leaves the iteration order of the map unspecified, so the
position of an element in the list carries no meaning: the queries that iterate over the map
return their result as a multiset, i.e. up to order. -/
structure AssetDatabase where
  assets : List (String × AssetMetadata)
deriving DecidableEq, Repr

namespace AssetDatabase

/-- A default-constructed database. -/
def empty : AssetDatabase := { assets := [] }

/-- Method `AssetDatabase::AddAsset`: `assets.emplace(asset.name, asset)`, which inserts
nothing when an element with that key exists. -/
def AddAsset (db : AssetDatabase) (asset : AssetMetadata) : AssetDatabase :=
  if db.assets.any (fun e => e.1 == asset.name) then db
  else { assets := db.assets ++ [(asset.name, asset)] }

/-- Method `AssetDatabase::RemoveAsset`: `assets.erase(name)`. -/
def RemoveAsset (db : AssetDatabase) (name : String) : AssetDatabase :=
  { assets := db.assets.filter (fun e => e.1 != name) }

/-- Method `AssetDatabase::GetAsset`: the metadata stored under `name`, or the default
metadata when the key is absent. -/
def GetAsset (db : AssetDatabase) (name : String) : AssetMetadata :=
  match db.assets.find? (fun e => e.1 == name) with
  | some it => it.2
  | none => ⟨"", "", .Texture, [], "", 0⟩

/-- Method `AssetDatabase::GetAssetsByType`: iterate over the map, `push_back` each metadata
of the given type.  The returned vector is given up to order. -/
def GetAssetsByType (db : AssetDatabase) (type : AssetType) : Multiset AssetMetadata :=
  Multiset.ofList (db.assets.foldl
    (fun assetsOfType asset =>
      if asset.2.type = type then assetsOfType ++ [asset.2] else assetsOfType)
    [])

/-- Method `AssetDatabase::GetAssetsByKeyword`: iterate over the map, `push_back` each
metadata for which `std::find` locates the keyword in its keyword list.  The returned vector
is given up to order. -/
def GetAssetsByKeyword (db : AssetDatabase) (keyword : String) : Multiset AssetMetadata :=
  Multiset.ofList (db.assets.foldl
    (fun assetsWithKeyword asset =>
      if keyword ∈ asset.2.keywords then assetsWithKeyword ++ [asset.2] else assetsWithKeyword)
    [])

/-- Perform one call on the database. -/
def step (db : AssetDatabase) : AssetManager.Op → AssetDatabase
  | .add metadata => db.AddAsset metadata
  | .remove name => db.RemoveAsset name

/-- Perform a sequence of calls, left to right. -/
def runFrom (db : AssetDatabase) (ops : List AssetManager.Op) : AssetDatabase :=
  ops.foldl step db

/-- The database after a sequence of calls on a default-constructed database. -/
def run (ops : List AssetManager.Op) : AssetDatabase := runFrom empty ops

end AssetDatabase

namespace AssetManager

/-- The database entry that corresponds to a record of the manager. -/
def entryOf (a : Asset) : String × AssetMetadata := (a.GetMetadata.name, a.GetMetadata)

/-! ## The keyword map -/

theorem getAssetsByKeyword_eq_bucket (m : AssetManager) (k : String) :
    m.GetAssetsByKeyword k = bucket m.assetsByKeyword_ k := rfl

theorem bucket_update (idx : KeywordMap) (k k' : String) (f : List Ptr → List Ptr) :
    bucket (idx.update k f) k' = if k = k' then f (bucket idx k) else bucket idx k' := by
  induction idx with
  | nil =>
    by_cases h : k = k' <;> simp [KeywordMap.update, bucket, KeywordMap.find, h]
  | cons e rest ih =>
    obtain ⟨k0, v⟩ := e
    by_cases h0 : k0 = k
    · subst h0
      by_cases h : k0 = k' <;> simp [KeywordMap.update, bucket, KeywordMap.find, h]
    · by_cases h : k = k'
      · subst h
        simp only [bucket, if_true] at ih
        simp [KeywordMap.update, bucket, KeywordMap.find, h0, ih]
      · simp only [bucket, if_neg h] at ih
        by_cases h1 : k0 = k'
        · subst h1
          simp [KeywordMap.update, bucket, KeywordMap.find, h0, h]
        · simp [KeywordMap.update, bucket, KeywordMap.find, h0, h, h1, ih]

theorem bucket_foldl_update (f : List Ptr → List Ptr) (kws : List String) (idx : KeywordMap)
    (k : String) :
    bucket (kws.foldl (fun i kw => i.update kw f) idx) k = f^[kws.count k] (bucket idx k) := by
  induction kws generalizing idx with
  | nil => simp
  | cons kw rest ih =>
    rw [List.foldl_cons, ih, bucket_update]
    by_cases h : kw = k
    · subst h
      simp [Function.iterate_succ_apply]
    · have : (kw == k) = false := by simpa using h
      simp [h, List.count_cons, this]

theorem iterate_push (p : Ptr) (n : Nat) (l : List Ptr) :
    (fun b : List Ptr => b ++ [p])^[n] l = l ++ List.replicate n p := by
  induction n generalizing l with
  | zero => simp
  | succ n ih =>
    rw [Function.iterate_succ_apply, ih, List.replicate_succ]
    simp

theorem iterate_filter (q : Ptr → Bool) (n : Nat) (l : List Ptr) :
    (fun b : List Ptr => b.filter q)^[n] l = if n = 0 then l else l.filter q := by
  induction n generalizing l with
  | zero => simp
  | succ n ih =>
    rw [Function.iterate_succ_apply, ih]
    by_cases h : n = 0 <;> simp [h]

/-! ## The scans over `assets_` -/

theorem split_first (name : String) (l : List Asset)
    (h : ∃ a ∈ l, a.GetMetadata.name = name) :
    ∃ l₁ a l₂, l = l₁ ++ a :: l₂ ∧ (∀ b ∈ l₁, b.GetMetadata.name ≠ name) ∧
      a.GetMetadata.name = name := by
  induction l with
  | nil => simp at h
  | cons x rest ih =>
    by_cases hx : x.GetMetadata.name = name
    · exact ⟨[], x, rest, rfl, by simp, hx⟩
    · have h' : ∃ a ∈ rest, a.GetMetadata.name = name := by
        obtain ⟨a, ha, hn⟩ := h
        rcases List.mem_cons.mp ha with rfl | ha
        · exact absurd hn hx
        · exact ⟨a, ha, hn⟩
      obtain ⟨l₁, a, l₂, rfl, h₁, ha⟩ := ih h'
      refine ⟨x :: l₁, a, l₂, rfl, ?_, ha⟩
      intro b hb
      rcases List.mem_cons.mp hb with rfl | hb
      · exact hx
      · exact h₁ b hb

theorem removeScan_none (name : String) (idx : KeywordMap) (l : List Asset)
    (h : ∀ a ∈ l, a.GetMetadata.name ≠ name) : removeScan name idx l = (l, idx) := by
  induction l with
  | nil => rfl
  | cons x rest ih =>
    have hx : x.GetMetadata.name ≠ name := h x (List.mem_cons_self _ _)
    have hr := ih (fun a ha => h a (List.mem_cons_of_mem _ ha))
    simp [removeScan, hx, hr]

theorem removeScan_some (name : String) (idx : KeywordMap) (l₁ : List Asset) (a : Asset)
    (l₂ : List Asset) (h₁ : ∀ b ∈ l₁, b.GetMetadata.name ≠ name)
    (ha : a.GetMetadata.name = name) :
    removeScan name idx (l₁ ++ a :: l₂) = (l₁ ++ l₂, purge idx a) := by
  induction l₁ with
  | nil => simp [removeScan, ha]
  | cons x rest ih =>
    have hx : x.GetMetadata.name ≠ name := h₁ x (List.mem_cons_self _ _)
    have hr := ih (fun b hb => h₁ b (List.mem_cons_of_mem _ hb))
    simp [removeScan, hx, hr]

theorem nameScan_none (name : String) (l : List Asset)
    (h : ∀ a ∈ l, a.GetMetadata.name ≠ name) : nameScan name l = none := by
  induction l with
  | nil => rfl
  | cons x rest ih =>
    have hx : x.GetMetadata.name ≠ name := h x (List.mem_cons_self _ _)
    simp [nameScan, hx, ih (fun a ha => h a (List.mem_cons_of_mem _ ha))]

theorem nameScan_some (name : String) (l₁ : List Asset) (a : Asset) (l₂ : List Asset)
    (h₁ : ∀ b ∈ l₁, b.GetMetadata.name ≠ name) (ha : a.GetMetadata.name = name) :
    nameScan name (l₁ ++ a :: l₂) = some a := by
  induction l₁ with
  | nil => simp [nameScan, ha]
  | cons x rest ih =>
    have hx : x.GetMetadata.name ≠ name := h₁ x (List.mem_cons_self _ _)
    simp [nameScan, hx, ih (fun b hb => h₁ b (List.mem_cons_of_mem _ hb))]

theorem removeAsset_none (m : AssetManager) (name : String)
    (h : ∀ a ∈ m.assets_, a.GetMetadata.name ≠ name) : m.RemoveAsset name = m := by
  simp [RemoveAsset, removeScan_none name _ _ h]

theorem removeAsset_some (m : AssetManager) (name : String) (l₁ : List Asset) (a : Asset)
    (l₂ : List Asset) (hl : m.assets_ = l₁ ++ a :: l₂)
    (h₁ : ∀ b ∈ l₁, b.GetMetadata.name ≠ name) (ha : a.GetMetadata.name = name) :
    m.RemoveAsset name =
      { assets_ := l₁ ++ l₂, assetsByKeyword_ := purge m.assetsByKeyword_ a,
        nextAddr := m.nextAddr } := by
  simp [RemoveAsset, hl, removeScan_some name _ l₁ a l₂ h₁ ha]

/-! ## The buckets after `AddAsset` and after the purge -/

theorem bucket_addAsset (m : AssetManager) (md : AssetMetadata) (k : String) :
    bucket (m.AddAsset md).assetsByKeyword_ k =
      bucket m.assetsByKeyword_ k ++ List.replicate (md.keywords.count k) m.nextAddr := by
  simp only [AddAsset]
  rw [bucket_foldl_update (fun b => b ++ [m.nextAddr]), iterate_push]

theorem bucket_purge (idx : KeywordMap) (a : Asset) (k : String) :
    bucket (purge idx a) k =
      if a.GetMetadata.keywords.count k = 0 then bucket idx k
      else (bucket idx k).filter (fun p => p != a.addr) := by
  simp only [purge]
  rw [bucket_foldl_update (fun b => b.filter (fun p => p != a.addr)), iterate_filter]

theorem filter_entries_of_ne (k : String) (p : Ptr) (l : List Asset)
    (h : ∀ b ∈ l, b.addr ≠ p) :
    (l.flatMap (entries k)).filter (fun q => q != p) = l.flatMap (entries k) := by
  rw [List.filter_eq_self]
  intro q hq
  obtain ⟨b, hb, hqb⟩ := List.mem_flatMap.mp hq
  have : q = b.addr := (List.mem_replicate.mp hqb).2
  simpa [this] using h b hb

theorem filter_entries_self (k : String) (a : Asset) :
    (entries k a).filter (fun q => q != a.addr) = [] := by
  simp [entries, List.filter_replicate]

/-! ## The invariant holds in every reachable state -/

theorem inv_empty : Inv empty :=
  { below := by simp [empty]
    sorted := by simp [empty]
    index := by intro k; simp [empty, bucket, KeywordMap.find] }

theorem inv_addAsset (m : AssetManager) (md : AssetMetadata) (h : Inv m) :
    Inv (m.AddAsset md) := by
  refine { below := ?_, sorted := ?_, index := ?_ }
  · intro a ha
    simp only [AddAsset, List.mem_append, List.mem_singleton] at ha ⊢
    rcases ha with ha | rfl
    · exact Nat.lt_succ_of_lt (h.below a ha)
    · exact Nat.lt_succ_self _
  · simp only [AddAsset, List.map_append, List.map_cons, List.map_nil]
    rw [List.pairwise_append]
    refine ⟨h.sorted, by simp, ?_⟩
    intro x hx y hy
    obtain ⟨a, ha, rfl⟩ := List.mem_map.mp hx
    rw [List.mem_singleton.mp hy]
    exact h.below a ha
  · intro k
    rw [bucket_addAsset, h.index k]
    simp [AddAsset, List.flatMap_append, entries, Asset.GetMetadata]

theorem inv_removeAsset (m : AssetManager) (name : String) (h : Inv m) :
    Inv (m.RemoveAsset name) := by
  by_cases hex : ∃ a ∈ m.assets_, a.GetMetadata.name = name
  · obtain ⟨l₁, a, l₂, hl, h₁, ha⟩ := split_first name m.assets_ hex
    rw [removeAsset_some m name l₁ a l₂ hl h₁ ha]
    have hs := h.sorted
    rw [hl, List.map_append, List.map_cons, List.pairwise_append, List.pairwise_cons] at hs
    obtain ⟨hs₁, ⟨ha₂, hs₂⟩, h₁₂⟩ := hs
    have hne₁ : ∀ b ∈ l₁, b.addr ≠ a.addr := fun b hb =>
      Nat.ne_of_lt (h₁₂ b.addr (List.mem_map_of_mem _ hb) a.addr (List.mem_cons_self _ _))
    have hne₂ : ∀ b ∈ l₂, b.addr ≠ a.addr := fun b hb =>
      Nat.ne_of_gt (ha₂ b.addr (List.mem_map_of_mem _ hb))
    refine { below := ?_, sorted := ?_, index := ?_ }
    · intro b hb
      apply h.below
      rw [hl]
      rcases List.mem_append.mp hb with hb | hb
      · exact List.mem_append_left _ hb
      · exact List.mem_append_right _ (List.mem_cons_of_mem _ hb)
    · show ((l₁ ++ l₂).map Asset.addr).Pairwise (fun x y => x < y)
      rw [List.map_append, List.pairwise_append]
      exact ⟨hs₁, hs₂, fun x hx y hy => h₁₂ x hx y (List.mem_cons_of_mem _ hy)⟩
    · intro k
      show bucket (purge m.assetsByKeyword_ a) k = (l₁ ++ l₂).flatMap (entries k)
      rw [bucket_purge, h.index k, hl]
      by_cases hc : a.GetMetadata.keywords.count k = 0
      · simp [hc, List.flatMap_append, List.flatMap_cons, entries]
      · rw [if_neg hc, List.flatMap_append, List.flatMap_cons, List.filter_append,
          List.filter_append, filter_entries_of_ne k a.addr l₁ hne₁, filter_entries_self,
          filter_entries_of_ne k a.addr l₂ hne₂, List.flatMap_append, List.nil_append]
  · have hno : ∀ a ∈ m.assets_, a.GetMetadata.name ≠ name := fun a ha hn => hex ⟨a, ha, hn⟩
    rw [removeAsset_none m name hno]
    exact h

theorem inv_step (m : AssetManager) (op : Op) (h : Inv m) : Inv (m.step op) := by
  cases op with
  | add md => exact inv_addAsset m md h
  | remove name => exact inv_removeAsset m name h

theorem inv_runFrom (ops : List Op) (m : AssetManager) (h : Inv m) : Inv (m.runFrom ops) := by
  induction ops generalizing m with
  | nil => exact h
  | cons op rest ih => exact ih (m.step op) (inv_step m op h)

theorem inv_run (ops : List Op) : Inv (run ops) := inv_runFrom ops empty inv_empty

theorem run_append (ops : List Op) (op : Op) : run (ops ++ [op]) = (run ops).step op := by
  simp [run, runFrom, List.foldl_append]

theorem mem_entries (k : String) (a : Asset) (p : Ptr) :
    p ∈ entries k a ↔ a.addr = p ∧ k ∈ a.GetMetadata.keywords := by
  simp only [entries, List.mem_replicate, ne_eq, List.count_eq_zero, not_not]
  constructor
  · rintro ⟨hk, rfl⟩; exact ⟨rfl, hk⟩
  · rintro ⟨rfl, hk⟩; exact ⟨hk, rfl⟩

theorem mem_bucket_of_inv (m : AssetManager) (h : Inv m) (k : String) (p : Ptr) :
    p ∈ m.GetAssetsByKeyword k ↔
      ∃ a ∈ m.assets_, a.addr = p ∧ k ∈ a.GetMetadata.keywords := by
  rw [getAssetsByKeyword_eq_bucket, h.index k, List.mem_flatMap]
  simp only [mem_entries]

theorem nameScan_eq_none_iff (name : String) (l : List Asset) :
    nameScan name l = none ↔ ∀ a ∈ l, a.GetMetadata.name ≠ name := by
  constructor
  · intro h a ha hn
    obtain ⟨l₁, b, l₂, rfl, h₁, hb⟩ := split_first name l ⟨a, ha, hn⟩
    rw [nameScan_some name l₁ b l₂ h₁ hb] at h
    cases h
  · exact nameScan_none name l

theorem nameScan_eq_some (name : String) (l : List Asset) (r : Asset)
    (h : nameScan name l = some r) :
    ∃ l₁ l₂, l = l₁ ++ r :: l₂ ∧ (∀ b ∈ l₁, b.GetMetadata.name ≠ name) ∧
      r.GetMetadata.name = name := by
  by_cases hex : ∃ a ∈ l, a.GetMetadata.name = name
  · obtain ⟨l₁, b, l₂, rfl, h₁, hb⟩ := split_first name l hex
    rw [nameScan_some name l₁ b l₂ h₁ hb] at h
    cases h
    exact ⟨l₁, l₂, rfl, h₁, hb⟩
  · rw [nameScan_none name l (fun a ha hn => hex ⟨a, ha, hn⟩)] at h
    cases h

theorem nameScan_append_of_none (name : String) (l₁ l₂ : List Asset)
    (h₁ : ∀ b ∈ l₁, b.GetMetadata.name ≠ name) :
    nameScan name (l₁ ++ l₂) = nameScan name l₂ := by
  induction l₁ with
  | nil => rfl
  | cons x rest ih =>
    have hx : x.GetMetadata.name ≠ name := h₁ x (List.mem_cons_self _ _)
    simp [nameScan, hx, ih (fun b hb => h₁ b (List.mem_cons_of_mem _ hb))]

theorem filter_name_eq_nil (name : String) (l : List Asset) :
    l.filter (fun a => decide (a.GetMetadata.name = name)) = [] ↔
      ∀ a ∈ l, a.GetMetadata.name ≠ name := by
  simp [List.filter_eq_nil_iff]

theorem nameCount_split (m : AssetManager) (name : String) (l₁ : List Asset) (a : Asset)
    (l₂ : List Asset) (hl : m.assets_ = l₁ ++ a :: l₂)
    (h₁ : ∀ b ∈ l₁, b.GetMetadata.name ≠ name) (ha : a.GetMetadata.name = name) :
    nameCount m name = (l₂.filter (fun a => decide (a.GetMetadata.name = name))).length + 1 := by
  simp [nameCount, hl, List.filter_append, (filter_name_eq_nil name l₁).mpr h₁,
    List.filter_cons, ha]

theorem nameCount_eq_zero (m : AssetManager) (name : String)
    (h : ∀ a ∈ m.assets_, a.GetMetadata.name ≠ name) : nameCount m name = 0 := by
  simp [nameCount, (filter_name_eq_nil name m.assets_).mpr h]

theorem typeScan_eq (type : AssetType) (l : List Asset) (acc : List Ptr) :
    l.foldl (fun assetsOfType asset =>
        if asset.GetMetadata.type = type then assetsOfType ++ [asset.addr] else assetsOfType)
      acc =
    acc ++ (l.filter (fun a => decide (a.GetMetadata.type = type))).map Asset.addr := by
  induction l generalizing acc with
  | nil => simp
  | cons x rest ih =>
    rw [List.foldl_cons, ih]
    by_cases hx : x.GetMetadata.type = type <;> simp [hx]

theorem getAssetsByType_eq (m : AssetManager) (type : AssetType) :
    m.GetAssetsByType type =
      (m.assets_.filter (fun a => decide (a.GetMetadata.type = type))).map Asset.addr := by
  simp [GetAssetsByType, typeScan_eq]

theorem nameScan_skip (name : String) (l₁ : List Asset) (b : Asset) (l₂ : List Asset)
    (hb : b.GetMetadata.name ≠ name) :
    nameScan name (l₁ ++ b :: l₂) = nameScan name (l₁ ++ l₂) := by
  induction l₁ with
  | nil => simp [nameScan, hb]
  | cons x rest ih =>
    by_cases hx : x.GetMetadata.name = name <;> simp [nameScan, hx, ih]

theorem nameScan_removeAsset_of_ne (m : AssetManager) (name other : String)
    (h : name ≠ other) :
    nameScan name (m.RemoveAsset other).assets_ = nameScan name m.assets_ := by
  by_cases hex : ∃ a ∈ m.assets_, a.GetMetadata.name = other
  · obtain ⟨l₁, b, l₂, hl, h₁, hb⟩ := split_first other m.assets_ hex
    rw [removeAsset_some m other l₁ b l₂ hl h₁ hb, hl]
    exact (nameScan_skip name l₁ b l₂ (by rw [hb]; exact fun e => h e.symm)).symm
  · rw [removeAsset_none m other (fun a ha hn => hex ⟨a, ha, hn⟩)]

theorem copyLoop_eq (l acc : List Ptr) :
    l.foldl (fun relatedAssets related => relatedAssets ++ [related]) acc = acc ++ l := by
  induction l generalizing acc with
  | nil => simp
  | cons x rest ih => rw [List.foldl_cons, ih]; simp

theorem getRelatedAssets_eq (m : AssetManager) (name : String) :
    m.GetRelatedAssets name =
      match nameScan name m.assets_ with
      | none => []
      | some asset => asset.GetRelatedAssets := by
  unfold GetRelatedAssets
  cases nameScan name m.assets_ with
  | none => rfl
  | some a => simp [copyLoop_eq]

/-! ## The claims -/

/-- C1 (index consistency): after every sequence of `AddAsset` / `RemoveAsset` calls on an
empty manager, the live records have pairwise distinct addresses, and for every keyword `k`
an address is returned by `GetAssetsByKeyword k` iff it is the address of a record currently
in `assets_` whose metadata keywords contain `k`. -/
theorem index_consistency (ops : List Op) (k : String) :
    ((run ops).assets_.map Asset.addr).Nodup ∧
    ∀ p : Ptr, p ∈ (run ops).GetAssetsByKeyword k ↔
      ∃ a ∈ (run ops).assets_, a.addr = p ∧ k ∈ a.GetMetadata.keywords :=
  ⟨((inv_run ops).sorted).imp (fun h => Nat.ne_of_lt h),
    fun p => mem_bucket_of_inv (run ops) (inv_run ops) k p⟩

/-- C2, the claim as stated fails: in the reachable state with two records named "A",
`RemoveAsset "A"` finds a match, and `GetAssetByName "A"` afterwards still returns a record
(the second one, at address 1) instead of `nullptr`. -/
theorem lookup_after_removal_counterexample :
    twoNamedA.GetAssetByName "A" = some 0 ∧
    (twoNamedA.RemoveAsset "A").GetAssetByName "A" = some 1 := by
  decide

/-- C2, amended: in every manager state (reachable or not) and for every name for which
`RemoveAsset name` finds a matching record, `GetAssetByName name` returns `nullptr` right
after the removal iff exactly one live record carried that name before. -/
theorem lookup_after_removal (m : AssetManager) (name : String)
    (h : ∃ a ∈ m.assets_, a.GetMetadata.name = name) :
    (m.RemoveAsset name).GetAssetByName name = none ↔ nameCount m name = 1 := by
  obtain ⟨l₁, a, l₂, hl, h₁, ha⟩ := split_first name m.assets_ h
  rw [removeAsset_some m name l₁ a l₂ hl h₁ ha, nameCount_split m name l₁ a l₂ hl h₁ ha]
  simp only [GetAssetByName, Option.map_eq_none', nameScan_append_of_none name l₁ l₂ h₁,
    nameScan_eq_none_iff, Nat.add_left_eq_self, List.length_eq_zero, filter_name_eq_nil]

/-- C2, amended, at a concrete input: one record named "B" is present and removed. -/
theorem lookup_after_removal_witness :
    (∃ a ∈ aRelatedToB.assets_, a.GetMetadata.name = "B") ∧
    ((aRelatedToB.RemoveAsset "B").GetAssetByName "B" = none ↔ nameCount aRelatedToB "B" = 1) :=
  ⟨by decide, lookup_after_removal aRelatedToB "B" (by decide)⟩

/-- C3, the claim as stated fails: in the reachable state with two records named "A", the
second `RemoveAsset "A"` is not a no-op: it removes the second record, so the record list is
empty after two calls and non-empty after one. -/
theorem remove_twice_counterexample :
    ((twoNamedA.RemoveAsset "A").RemoveAsset "A").assets_ = [] ∧
    (twoNamedA.RemoveAsset "A").assets_ ≠ [] ∧
    (twoNamedA.RemoveAsset "A").RemoveAsset "A" ≠ twoNamedA.RemoveAsset "A" := by
  decide

/-- C3, amended: in every manager state and for every name, calling `RemoveAsset name` twice
in a row leaves the manager in the same state as calling it once iff at most one live record
carries that name. -/
theorem remove_twice (m : AssetManager) (name : String) :
    (m.RemoveAsset name).RemoveAsset name = m.RemoveAsset name ↔ nameCount m name ≤ 1 := by
  by_cases hex : ∃ a ∈ m.assets_, a.GetMetadata.name = name
  · obtain ⟨l₁, a, l₂, hl, h₁, ha⟩ := split_first name m.assets_ hex
    rw [nameCount_split m name l₁ a l₂ hl h₁ ha, removeAsset_some m name l₁ a l₂ hl h₁ ha]
    by_cases hex₂ : ∃ b ∈ l₂, b.GetMetadata.name = name
    · obtain ⟨l₃, b, l₄, hl₂, h₃, hb⟩ := split_first name l₂ hex₂
      have hsplit : l₁ ++ l₂ = (l₁ ++ l₃) ++ b :: l₄ := by simp [hl₂]
      have hpre : ∀ c ∈ l₁ ++ l₃, c.GetMetadata.name ≠ name := by
        intro c hc
        rcases List.mem_append.mp hc with hc | hc
        · exact h₁ c hc
        · exact h₃ c hc
      rw [removeAsset_some _ name (l₁ ++ l₃) b l₄ hsplit hpre hb]
      constructor
      · intro heq
        have hlen := congrArg (fun s => s.assets_.length) heq
        simp [hl₂] at hlen
      · intro hle
        have : l₂.filter (fun a => decide (a.GetMetadata.name = name)) = [] := by
          apply List.length_eq_zero.mp
          omega
        exact absurd hb ((filter_name_eq_nil name l₂).mp this b (by simp [hl₂]))
    · have hno : ∀ c ∈ l₁ ++ l₂, c.GetMetadata.name ≠ name := by
        intro c hc hn
        rcases List.mem_append.mp hc with hc | hc
        · exact h₁ c hc hn
        · exact hex₂ ⟨c, hc, hn⟩
      have hfil : l₂.filter (fun a => decide (a.GetMetadata.name = name)) = [] :=
        (filter_name_eq_nil name l₂).mpr (fun c hc hn => hex₂ ⟨c, hc, hn⟩)
      rw [removeAsset_none _ name hno]
      simp [hfil]
  · have hno : ∀ a ∈ m.assets_, a.GetMetadata.name ≠ name := fun a ha hn => hex ⟨a, ha, hn⟩
    rw [removeAsset_none m name hno, removeAsset_none m name hno, nameCount_eq_zero m name hno]
    simp

/-- C4, the claim as stated fails: "A" (address 0) and "B" (address 1) are present and
`AddRelatedAsset` put the pointer to "B" into the relation list of "A".  After
`RemoveAsset "B"` the query `GetRelatedAssets "A"` still returns the pointer to "B", although
no live record has that address any more: nothing is skipped. -/
theorem related_after_removal_counterexample :
    aRelatedToB.GetAssetByName "A" = some 0 ∧
    aRelatedToB.GetAssetByName "B" = some 1 ∧
    aRelatedToB.GetRelatedAssets "A" = [1] ∧
    (aRelatedToB.RemoveAsset "B").GetRelatedAssets "A" = [1] ∧
    (aRelatedToB.RemoveAsset "B").deref 1 = none := by
  decide

/-- C4, amended: in every manager state with pairwise distinct record addresses, let `a` be
the record `GetAssetByName nameA` finds and `b` the record `GetAssetByName nameB` finds, with
different names, and let the pointer to `b` be in the relation list of `a`.  Then after
`RemoveAsset nameB` the query `GetRelatedAssets nameA` returns the same sequence as before,
namely the stored relation list of `a`; the pointer to `b` is still in the result, and it
designates no live record any more: nothing is skipped. -/
theorem related_after_removal (m : AssetManager) (nameA nameB : String) (a b : Asset)
    (h : nameA ≠ nameB)
    (ha : nameScan nameA m.assets_ = some a)
    (hb : nameScan nameB m.assets_ = some b)
    (hrel : b.addr ∈ a.GetRelatedAssets)
    (hnd : (m.assets_.map Asset.addr).Nodup) :
    (m.RemoveAsset nameB).GetRelatedAssets nameA = m.GetRelatedAssets nameA ∧
    (m.RemoveAsset nameB).GetRelatedAssets nameA = a.GetRelatedAssets ∧
    b.addr ∈ (m.RemoveAsset nameB).GetRelatedAssets nameA ∧
    (m.RemoveAsset nameB).deref b.addr = none := by
  have hafter : (m.RemoveAsset nameB).GetRelatedAssets nameA = a.GetRelatedAssets := by
    rw [getRelatedAssets_eq, nameScan_removeAsset_of_ne m nameA nameB h, ha]
  have hbefore : m.GetRelatedAssets nameA = a.GetRelatedAssets := by
    rw [getRelatedAssets_eq, ha]
  refine ⟨by rw [hafter, hbefore], hafter, by rw [hafter]; exact hrel, ?_⟩
  obtain ⟨l₁, l₂, hl, h₁, hn⟩ := nameScan_eq_some nameB _ b hb
  rw [removeAsset_some m nameB l₁ b l₂ hl h₁ hn]
  rw [hl, List.map_append, List.map_cons] at hnd
  have hmid := (List.nodup_cons.mp (List.nodup_middle.mp hnd)).1
  simp only [deref, List.find?_eq_none, beq_iff_eq]
  intro x hx hxb
  apply hmid
  rw [← List.map_append, ← hxb]
  exact List.mem_map_of_mem _ hx

/-- C4, amended, at a concrete input: "A" (address 0) holds the pointer to "B" (address 1)
in its relation list and "B" is removed; the result is still [1]. -/
theorem related_after_removal_witness :
    (aRelatedToB.RemoveAsset "B").GetRelatedAssets "A" = aRelatedToB.GetRelatedAssets "A" ∧
    (aRelatedToB.RemoveAsset "B").GetRelatedAssets "A" = [1] ∧
    (1 : Ptr) ∈ (aRelatedToB.RemoveAsset "B").GetRelatedAssets "A" ∧
    (aRelatedToB.RemoveAsset "B").deref 1 = none :=
  related_after_removal aRelatedToB "A" "B" ⟨0, firstA, [1]⟩ ⟨1, recordB, []⟩
    (by decide) (by decide) (by decide) (by decide) (by decide)

/-- C5 (type filter): after every sequence of `AddAsset` / `RemoveAsset` calls on an empty
manager and for every type `t`, `GetAssetsByType t` is the list of the addresses of the live
records of type `t`, in the order of `assets_`; an address is in the result iff it belongs to
a live record of type `t`; and the result is strictly increasing in the allocation serial
number, i.e. it is in insertion order and repeats no record. -/
theorem type_filter (ops : List Op) (t : AssetType) :
    (run ops).GetAssetsByType t =
      ((run ops).assets_.filter (fun a => decide (a.GetMetadata.type = t))).map Asset.addr ∧
    (∀ p : Ptr, p ∈ (run ops).GetAssetsByType t ↔
      ∃ a ∈ (run ops).assets_, a.addr = p ∧ a.GetMetadata.type = t) ∧
    ((run ops).GetAssetsByType t).Pairwise (fun x y => x < y) := by
  refine ⟨getAssetsByType_eq _ t, ?_, ?_⟩
  · intro p
    rw [getAssetsByType_eq, List.mem_map]
    constructor
    · rintro ⟨a, ha, rfl⟩
      rw [List.mem_filter] at ha
      exact ⟨a, ha.1, rfl, by simpa using ha.2⟩
    · rintro ⟨a, ha, rfl, ht⟩
      exact ⟨a, List.mem_filter.mpr ⟨ha, by simpa using ht⟩, rfl⟩
  · rw [getAssetsByType_eq]
    exact ((inv_run ops).sorted).sublist ((List.filter_sublist _).map Asset.addr)

/-- C6 (removal purges the index): after every sequence of `AddAsset` / `RemoveAsset` calls
on an empty manager, when `RemoveAsset name` removes the record `r` (the first record named
`name`), then afterwards no `GetAssetsByKeyword k` contains the address of `r`. -/
theorem removal_purges_index (ops : List Op) (name : String) (r : Asset)
    (h : nameScan name (run ops).assets_ = some r) (k : String) :
    r.addr ∉ ((run ops).RemoveAsset name).GetAssetsByKeyword k := by
  obtain ⟨l₁, l₂, hl, h₁, hr⟩ := nameScan_eq_some name _ r h
  have hinv : Inv ((run ops).RemoveAsset name) := inv_removeAsset _ name (inv_run ops)
  rw [mem_bucket_of_inv _ hinv]
  rw [removeAsset_some (run ops) name l₁ r l₂ hl h₁ hr]
  have hs := (inv_run ops).sorted
  rw [hl, List.map_append, List.map_cons, List.pairwise_append, List.pairwise_cons] at hs
  obtain ⟨_, ⟨hr₂, _⟩, h₁₂⟩ := hs
  rintro ⟨a, ha, haddr, _⟩
  rcases List.mem_append.mp ha with ha | ha
  · exact Nat.ne_of_lt (h₁₂ a.addr (List.mem_map_of_mem _ ha) r.addr (List.mem_cons_self _ _)) haddr
  · exact Nat.ne_of_gt (hr₂ a.addr (List.mem_map_of_mem _ ha)) haddr

/-- C6 at a concrete input: the removed record lists the keyword "x" twice. -/
theorem removal_purges_index_witness :
    nameScan "A" (run [.add recordB, .add firstA]).assets_ = some ⟨1, firstA, []⟩ ∧
    (1 : Ptr) ∉ ((run [.add recordB, .add firstA]).RemoveAsset "A").GetAssetsByKeyword "x" :=
  ⟨by decide,
    removal_purges_index [.add recordB, .add firstA] "A" ⟨1, firstA, []⟩ (by decide) "x"⟩

/-- C7 (scenario of `main`): after adding "Texture1", "Audio1" and "Model1" to an empty
manager, `GetAssetsByType Texture` returns exactly the pointer to "Texture1", whose name is
printed; `GetAssetsByKeyword "game"` returns the pointers to "Texture1", "Audio1", "Model1"
in that order; and after `RemoveAsset "Audio1"` the lookup of "background" returns exactly
the pointer to "Texture1".  Every returned pointer designates a live record: each printed
name is defined. -/
theorem scenario :
    scenarioManager = ((empty.AddAsset textureMetadata).AddAsset audioMetadata).AddAsset
      modelMetadata ∧
    scenarioManager.GetAssetsByType .Texture = [0] ∧
    scenarioManager.names (scenarioManager.GetAssetsByType .Texture) = [some "Texture1"] ∧
    scenarioManager.GetAssetsByKeyword "game" = [0, 1, 2] ∧
    scenarioManager.names (scenarioManager.GetAssetsByKeyword "game") =
      [some "Texture1", some "Audio1", some "Model1"] ∧
    (scenarioManager.RemoveAsset "Audio1").GetAssetsByKeyword "background" = [0] ∧
    (scenarioManager.RemoveAsset "Audio1").names
      ((scenarioManager.RemoveAsset "Audio1").GetAssetsByKeyword "background") =
      [some "Texture1"] := by
  refine ⟨rfl, ?_, ?_, ?_, ?_, ?_, ?_⟩ <;> decide

/-- C8 (removing an unknown name): in every manager state, when no live record carries
`name`, `RemoveAsset name` returns the state unchanged: same record list, same keyword index
with the same keys.  The function is total, it has no error result. -/
theorem remove_unknown_noop (m : AssetManager) (name : String)
    (h : ∀ a ∈ m.assets_, a.GetMetadata.name ≠ name) :
    m.RemoveAsset name = m ∧
    (m.RemoveAsset name).assets_ = m.assets_ ∧
    (m.RemoveAsset name).assetsByKeyword_ = m.assetsByKeyword_ ∧
    (m.RemoveAsset name).assetsByKeyword_.keys = m.assetsByKeyword_.keys := by
  rw [removeAsset_none m name h]
  exact ⟨rfl, rfl, rfl, rfl⟩

/-- C8 at a concrete input: no record named "C" is present. -/
theorem remove_unknown_noop_witness :
    (∀ a ∈ aRelatedToB.assets_, a.GetMetadata.name ≠ "C") ∧
    aRelatedToB.RemoveAsset "C" = aRelatedToB :=
  ⟨by decide, (remove_unknown_noop aRelatedToB "C" (by decide)).1⟩

/-- C9 (only the first match is removed): in every manager state with at least one record
named `name`, the record list splits as `before ++ r :: after` where `r` is named `name` and
no record of `before` is, and `RemoveAsset name` yields the record list `before ++ after`:
every other record, later records of the same name included, stays, in the same order and
unchanged. -/
theorem remove_first_match (m : AssetManager) (name : String)
    (h : ∃ a ∈ m.assets_, a.GetMetadata.name = name) :
    ∃ before r after, m.assets_ = before ++ r :: after ∧
      (∀ b ∈ before, b.GetMetadata.name ≠ name) ∧ r.GetMetadata.name = name ∧
      (m.RemoveAsset name).assets_ = before ++ after := by
  obtain ⟨l₁, a, l₂, hl, h₁, ha⟩ := split_first name m.assets_ h
  refine ⟨l₁, a, l₂, hl, h₁, ha, ?_⟩
  rw [removeAsset_some m name l₁ a l₂ hl h₁ ha]

/-- C9 at a concrete input: two records named "A" are present. -/
theorem remove_first_match_witness :
    (∃ a ∈ twoNamedA.assets_, a.GetMetadata.name = "A") ∧
    ∃ before r after, twoNamedA.assets_ = before ++ r :: after ∧
      (∀ b ∈ before, b.GetMetadata.name ≠ "A") ∧ r.GetMetadata.name = "A" ∧
      (twoNamedA.RemoveAsset "A").assets_ = before ++ after :=
  ⟨by decide, remove_first_match twoNamedA "A" (by decide)⟩

/-- C10 (insert appends): in every manager state and for every metadata `md`, `AddAsset md`
yields the previous record list followed by one new record whose metadata is `md` (with an
empty relation list); nothing is rejected or replaced, so the number of live records named
`md.name` grows by one. -/
theorem add_appends (m : AssetManager) (md : AssetMetadata) :
    (∃ a : Asset, (m.AddAsset md).assets_ = m.assets_ ++ [a] ∧ a.GetMetadata = md ∧
      a.GetRelatedAssets = []) ∧
    nameCount (m.AddAsset md) md.name = nameCount m md.name + 1 := by
  refine ⟨⟨⟨m.nextAddr, md, []⟩, rfl, rfl, rfl⟩, ?_⟩
  simp [nameCount, AddAsset, List.filter_append, Asset.GetMetadata]

/-! ## Lookup by name and relations -/

theorem nameScan_map_addRelated (name : String) (p q : Ptr) (l : List Asset) :
    nameScan name (l.map (fun a => if a.addr = p then a.AddRelatedAsset q else a)) =
      (nameScan name l).map (fun a => if a.addr = p then a.AddRelatedAsset q else a) := by
  induction l with
  | nil => rfl
  | cons x rest ih =>
    have hn : (if x.addr = p then x.AddRelatedAsset q else x).GetMetadata.name =
        x.GetMetadata.name := by
      by_cases hp : x.addr = p <;> simp [hp, Asset.AddRelatedAsset, Asset.GetMetadata]
    by_cases hx : x.GetMetadata.name = name
    · simp [nameScan, hn, hx]
    · simp [nameScan, hn, hx, ih]

theorem removeAsset_assets_sublist (m : AssetManager) (name : String) :
    (m.RemoveAsset name).assets_.Sublist m.assets_ := by
  by_cases hex : ∃ a ∈ m.assets_, a.GetMetadata.name = name
  · obtain ⟨l₁, a, l₂, hl, h₁, ha⟩ := split_first name m.assets_ hex
    rw [removeAsset_some m name l₁ a l₂ hl h₁ ha, hl]
    exact (List.Sublist.refl l₁).append (List.sublist_cons_self a l₂)
  · rw [removeAsset_none m name (fun a ha hn => hex ⟨a, ha, hn⟩)]

theorem relations_empty_runFrom (ops : List Op) (m : AssetManager)
    (h : ∀ a ∈ m.assets_, a.GetRelatedAssets = []) :
    ∀ a ∈ (m.runFrom ops).assets_, a.GetRelatedAssets = [] := by
  induction ops generalizing m with
  | nil => exact h
  | cons op rest ih =>
    apply ih (m.step op)
    cases op with
    | add md =>
      intro a ha
      simp only [step, AddAsset, List.mem_append, List.mem_singleton] at ha
      rcases ha with ha | rfl
      · exact h a ha
      · rfl
    | remove name =>
      intro a ha
      exact h a ((removeAsset_assets_sublist m name).subset ha)

/-- C11 (lookup by name): in every manager state and for every name, `GetAssetByName name`
returns `nullptr` iff no live record carries the name; and whenever the record list splits
as `before ++ r :: after` with `r` the first record named `name`, it returns the address of
`r`, the earliest-inserted live record with that name. -/
theorem find_by_name (m : AssetManager) (name : String) :
    (m.GetAssetByName name = none ↔ ∀ a ∈ m.assets_, a.GetMetadata.name ≠ name) ∧
    (∀ before r after, m.assets_ = before ++ r :: after →
      (∀ b ∈ before, b.GetMetadata.name ≠ name) → r.GetMetadata.name = name →
      m.GetAssetByName name = some r.addr) := by
  constructor
  · simp only [GetAssetByName, Option.map_eq_none', nameScan_eq_none_iff]
  · intro before r after hl h₁ hr
    simp only [GetAssetByName, hl, nameScan_some name before r after h₁ hr, Option.map_some']

/-- C11 at a concrete input: of the two records named "A" the first one (address 0) is
returned. -/
theorem find_by_name_witness :
    twoNamedA.assets_ = [] ++ ⟨0, firstA, []⟩ :: [⟨1, secondA, []⟩] ∧
    twoNamedA.GetAssetByName "A" = some 0 :=
  ⟨by decide,
    (find_by_name twoNamedA "A").2 [] ⟨0, firstA, []⟩ [⟨1, secondA, []⟩] (by decide)
      (by simp) (by decide)⟩

/-- C12 (related assets resolve by name): in every manager state and for every name,
`GetRelatedAssets name` is empty when no live record carries the name; otherwise, with `r`
the first record named `name`, it is exactly the relation list of `r`, and a further
`AddRelatedAsset q` on `r` appends `q` at the end of the result, whatever `q` is (a repeated
pointer or the pointer to `r` itself included). -/
theorem related_of (m : AssetManager) (name : String) :
    ((∀ a ∈ m.assets_, a.GetMetadata.name ≠ name) → m.GetRelatedAssets name = []) ∧
    (∀ before r after, m.assets_ = before ++ r :: after →
      (∀ b ∈ before, b.GetMetadata.name ≠ name) → r.GetMetadata.name = name →
      m.GetRelatedAssets name = r.GetRelatedAssets ∧
      ∀ q : Ptr, (m.mutateAt r.addr (fun a => a.AddRelatedAsset q)).GetRelatedAssets name =
        r.GetRelatedAssets ++ [q]) := by
  constructor
  · intro h
    rw [getRelatedAssets_eq, nameScan_none name _ h]
  · intro before r after hl h₁ hr
    have hscan : nameScan name m.assets_ = some r := by
      rw [hl]; exact nameScan_some name before r after h₁ hr
    constructor
    · rw [getRelatedAssets_eq, hscan]
    · intro q
      rw [getRelatedAssets_eq]
      simp only [mutateAt]
      rw [nameScan_map_addRelated, hscan]
      simp [Asset.AddRelatedAsset, Asset.GetRelatedAssets]

/-- C12 at a concrete input: "A" holds the relation list [1]; adding the same pointer again
and then the pointer to "A" itself yields [1, 1] and [1, 0]. -/
theorem related_of_witness :
    aRelatedToB.GetRelatedAssets "C" = [] ∧
    aRelatedToB.GetRelatedAssets "A" = [1] ∧
    (aRelatedToB.mutateAt 0 (fun a => a.AddRelatedAsset 1)).GetRelatedAssets "A" = [1, 1] ∧
    (aRelatedToB.mutateAt 0 (fun a => a.AddRelatedAsset 0)).GetRelatedAssets "A" = [1, 0] :=
  ⟨(related_of aRelatedToB "C").1 (by decide),
    ((related_of aRelatedToB "A").2 [] ⟨0, firstA, [1]⟩ [⟨1, recordB, []⟩] (by decide)
      (by simp) (by decide)).1,
    ((related_of aRelatedToB "A").2 [] ⟨0, firstA, [1]⟩ [⟨1, recordB, []⟩] (by decide)
      (by simp) (by decide)).2 1,
    ((related_of aRelatedToB "A").2 [] ⟨0, firstA, [1]⟩ [⟨1, recordB, []⟩] (by decide)
      (by simp) (by decide)).2 0⟩

/-- C15 (relations are unreachable through the manager): after every sequence of `AddAsset`
/ `RemoveAsset` calls on an empty manager, every live record has an empty relation list and
`GetRelatedAssets name` is empty for every name. -/
theorem relations_unreachable (ops : List Op) :
    (∀ a ∈ (run ops).assets_, a.GetRelatedAssets = []) ∧
    ∀ name : String, (run ops).GetRelatedAssets name = [] := by
  have hall : ∀ a ∈ (run ops).assets_, a.GetRelatedAssets = [] :=
    relations_empty_runFrom ops empty (by simp [empty])
  refine ⟨hall, fun name => ?_⟩
  rw [getRelatedAssets_eq]
  cases hs : nameScan name (run ops).assets_ with
  | none => rfl
  | some r =>
    obtain ⟨l₁, l₂, hl, _, _⟩ := nameScan_eq_some name _ r hs
    exact hall r (by rw [hl]; simp)

theorem mem_insertedKeywords (ops : List Op) (k : String) :
    k ∈ insertedKeywords ops ↔ ∃ md : AssetMetadata, Op.add md ∈ ops ∧ k ∈ md.keywords := by
  induction ops with
  | nil => simp [insertedKeywords]
  | cons op rest ih =>
    cases op with
    | add md0 =>
      simp only [insertedKeywords, List.mem_append, ih, List.mem_cons, Op.add.injEq]
      constructor
      · rintro (h | ⟨md, hmd, hk⟩)
        · exact ⟨md0, Or.inl rfl, h⟩
        · exact ⟨md, Or.inr hmd, hk⟩
      · rintro ⟨md, hmd | hmd, hk⟩
        · exact Or.inl (hmd ▸ hk)
        · exact Or.inr ⟨md, hmd, hk⟩
    | remove name =>
      simp only [insertedKeywords, ih, List.mem_cons]
      constructor
      · rintro ⟨md, hmd, hk⟩
        exact ⟨md, Or.inr hmd, hk⟩
      · rintro ⟨md, hmd | hmd, hk⟩
        · cases hmd
        · exact ⟨md, hmd, hk⟩

/-! ## Order and multiplicity inside a bucket -/

theorem mem_flatMap_entries_addr (k : String) (l : List Asset) (p : Ptr)
    (h : p ∈ l.flatMap (entries k)) : p ∈ l.map Asset.addr := by
  obtain ⟨a, ha, hp⟩ := List.mem_flatMap.mp h
  rw [(List.mem_replicate.mp hp).2]
  exact List.mem_map_of_mem _ ha

theorem pairwise_le_entries (k : String) (l : List Asset)
    (h : (l.map Asset.addr).Pairwise (fun x y => x < y)) :
    (l.flatMap (entries k)).Pairwise (fun x y => x ≤ y) := by
  induction l with
  | nil => simp
  | cons a rest ih =>
    rw [List.map_cons, List.pairwise_cons] at h
    rw [List.flatMap_cons, List.pairwise_append]
    refine ⟨?_, ih h.2, ?_⟩
    · simp [entries, List.pairwise_replicate]
    · intro x hx y hy
      rw [(List.mem_replicate.mp hx).2]
      exact Nat.le_of_lt (h.1 y (mem_flatMap_entries_addr k rest y hy))

theorem count_entries (k : String) (l : List Asset) (r : Asset)
    (h : (l.map Asset.addr).Pairwise (fun x y => x < y)) (hr : r ∈ l) :
    (l.flatMap (entries k)).count r.addr = r.GetMetadata.keywords.count k := by
  induction l with
  | nil => simp at hr
  | cons a rest ih =>
    rw [List.map_cons, List.pairwise_cons] at h
    rw [List.flatMap_cons, List.count_append]
    by_cases hra : r = a
    · subst hra
      have hnot : r.addr ∉ rest.flatMap (entries k) := fun hm =>
        Nat.lt_irrefl _ (h.1 r.addr (mem_flatMap_entries_addr k rest r.addr hm))
      rw [List.count_eq_zero.mpr hnot]
      simp [entries, List.count_replicate]
    · have hrest : r ∈ rest := by
        rcases List.mem_cons.mp hr with h' | h'
        · exact absurd h' hra
        · exact h'
      have hne : a.addr ≠ r.addr := Nat.ne_of_lt (h.1 r.addr (List.mem_map_of_mem _ hrest))
      rw [ih h.2 hrest]
      simp [entries, List.count_replicate, hne]

theorem bucket_removeAsset_eq_filter (m : AssetManager) (h : Inv m) (name : String)
    (r : Asset) (hr : nameScan name m.assets_ = some r) (k : String) :
    (m.RemoveAsset name).GetAssetsByKeyword k =
      (m.GetAssetsByKeyword k).filter (fun p => p != r.addr) := by
  obtain ⟨l₁, l₂, hl, h₁, hn⟩ := nameScan_eq_some name _ r hr
  have hs := h.sorted
  rw [hl, List.map_append, List.map_cons, List.pairwise_append, List.pairwise_cons] at hs
  obtain ⟨_, ⟨hr₂, _⟩, h₁₂⟩ := hs
  have hne₁ : ∀ b ∈ l₁, b.addr ≠ r.addr := fun b hb =>
    Nat.ne_of_lt (h₁₂ b.addr (List.mem_map_of_mem _ hb) r.addr (List.mem_cons_self _ _))
  have hne₂ : ∀ b ∈ l₂, b.addr ≠ r.addr := fun b hb =>
    Nat.ne_of_gt (hr₂ b.addr (List.mem_map_of_mem _ hb))
  rw [getAssetsByKeyword_eq_bucket, getAssetsByKeyword_eq_bucket,
    (inv_removeAsset m name h).index k, h.index k, hl,
    removeAsset_some m name l₁ r l₂ hl h₁ hn]
  show (l₁ ++ l₂).flatMap (entries k) = _
  rw [List.flatMap_append, List.flatMap_append, List.flatMap_cons, List.filter_append,
    List.filter_append, filter_entries_of_ne k r.addr l₁ hne₁, filter_entries_self,
    filter_entries_of_ne k r.addr l₂ hne₂, List.nil_append]

theorem keywords_of_runFrom (ops : List Op) (m : AssetManager) :
    ∀ a ∈ (m.runFrom ops).assets_,
      a ∈ m.assets_ ∨ ∀ k ∈ a.GetMetadata.keywords, k ∈ insertedKeywords ops := by
  induction ops generalizing m with
  | nil => intro a ha; exact Or.inl ha
  | cons op rest ih =>
    intro a ha
    cases op with
    | add md =>
      rcases ih (m.AddAsset md) a ha with h | h
      · simp only [AddAsset, List.mem_append, List.mem_singleton] at h
        rcases h with h | rfl
        · exact Or.inl h
        · exact Or.inr (fun k hk => by simp [insertedKeywords, Asset.GetMetadata] at hk ⊢; exact Or.inl hk)
      · exact Or.inr (fun k hk => by simp [insertedKeywords, h k hk])
    | remove name =>
      rcases ih (m.RemoveAsset name) a ha with h | h
      · exact Or.inl ((removeAsset_assets_sublist m name).subset h)
      · exact Or.inr (fun k hk => by simp [insertedKeywords, h k hk])

theorem entries_eq_nil (k : String) (a : Asset) (h : k ∉ a.GetMetadata.keywords) :
    entries k a = [] := by
  simp [entries, List.count_eq_zero.mpr h]

theorem flatMap_entries_eq_nil (k : String) (l : List Asset)
    (h : ∀ a ∈ l, k ∉ a.GetMetadata.keywords) : l.flatMap (entries k) = [] := by
  induction l with
  | nil => rfl
  | cons a rest ih =>
    rw [List.flatMap_cons, entries_eq_nil k a (h a (List.mem_cons_self _ _)),
      ih (fun b hb => h b (List.mem_cons_of_mem _ hb))]
    rfl

/-- C13 (keyword lookup order): after every sequence of `AddAsset` / `RemoveAsset` calls on
an empty manager and for every keyword `k`, `GetAssetsByKeyword k` lists the live records
carrying `k` in the order of `assets_`, so the addresses (allocation serial numbers) never
decrease along the result; `AddAsset` appends the new record at the end of the result;
`RemoveAsset` only deletes the removed record from it, the others keep their relative order;
and the result is empty when no call of the sequence inserted a record carrying `k`. -/
theorem keyword_lookup_order (ops : List Op) (k : String) :
    (run ops).GetAssetsByKeyword k = (run ops).assets_.flatMap (entries k) ∧
    ((run ops).GetAssetsByKeyword k).Pairwise (fun x y => x ≤ y) ∧
    (∀ md : AssetMetadata, ((run ops).AddAsset md).GetAssetsByKeyword k =
      (run ops).GetAssetsByKeyword k ++ List.replicate (md.keywords.count k) (run ops).nextAddr) ∧
    (∀ name r, nameScan name (run ops).assets_ = some r →
      ((run ops).RemoveAsset name).GetAssetsByKeyword k =
        ((run ops).GetAssetsByKeyword k).filter (fun p => p != r.addr)) ∧
    ((∀ md : AssetMetadata, Op.add md ∈ ops → k ∉ md.keywords) →
      (run ops).GetAssetsByKeyword k = []) := by
  have hinv := inv_run ops
  have hidx : (run ops).GetAssetsByKeyword k = (run ops).assets_.flatMap (entries k) := by
    rw [getAssetsByKeyword_eq_bucket, hinv.index k]
  refine ⟨hidx, ?_, ?_, ?_, ?_⟩
  · rw [hidx]
    exact pairwise_le_entries k _ hinv.sorted
  · intro md
    rw [getAssetsByKeyword_eq_bucket, getAssetsByKeyword_eq_bucket, bucket_addAsset]
  · intro name r hr
    exact bucket_removeAsset_eq_filter (run ops) hinv name r hr k
  · intro hk
    rw [hidx]
    apply flatMap_entries_eq_nil
    intro a ha hmem
    rcases keywords_of_runFrom ops empty a ha with h | h
    · simp [empty] at h
    · obtain ⟨md, hmd, hkmd⟩ := (mem_insertedKeywords ops k).mp (h k hmem)
      exact hk md hmd hkmd

/-- C13 at a concrete input, the scenario of `main`: removing "Audio1" leaves "Texture1"
(address 0) before "Model1" (address 2) under "game", and a keyword that was never inserted
yields nothing. -/
theorem keyword_lookup_order_witness :
    scenarioManager.GetAssetsByKeyword "game" = [0, 1, 2] ∧
    (scenarioManager.RemoveAsset "Audio1").GetAssetsByKeyword "game" =
      [0, 1, 2].filter (fun p => p != 1) ∧
    scenarioManager.GetAssetsByKeyword "sound" = [] :=
  ⟨by decide,
    by
      have h := (keyword_lookup_order
        [.add textureMetadata, .add audioMetadata, .add modelMetadata] "game").2.2.2.1
        "Audio1" ⟨1, audioMetadata, []⟩ (by decide)
      have h0 : scenarioManager.GetAssetsByKeyword "game" = [0, 1, 2] := by decide
      rw [← h0]
      exact h,
    (keyword_lookup_order
      [.add textureMetadata, .add audioMetadata, .add modelMetadata] "sound").2.2.2.2
      (by
        intro md hmd
        simp only [List.mem_cons, List.mem_singleton, Op.add.injEq, List.mem_nil_iff,
          or_false] at hmd
        rcases hmd with rfl | rfl | rfl <;> decide)⟩

/-- C14 (keyword multiplicity): after every sequence of `AddAsset` / `RemoveAsset` calls on
an empty manager, for every live record `r` and every keyword `k`, the address of `r` occurs
in `GetAssetsByKeyword k` exactly as often as `k` occurs in the keyword list of `r`. -/
theorem keyword_multiplicity (ops : List Op) (r : Asset) (k : String)
    (hr : r ∈ (run ops).assets_) :
    ((run ops).GetAssetsByKeyword k).count r.addr = r.GetMetadata.keywords.count k := by
  rw [getAssetsByKeyword_eq_bucket, (inv_run ops).index k]
  exact count_entries k _ r (inv_run ops).sorted hr

/-- C14 at a concrete input: the record "A" lists the keyword "x" twice and is returned twice
by the lookup of "x". -/
theorem keyword_multiplicity_witness :
    (⟨1, firstA, []⟩ : Asset) ∈ (run [.add recordB, .add firstA]).assets_ ∧
    (run [.add recordB, .add firstA]).GetAssetsByKeyword "x" = [0, 1, 1] ∧
    ((run [.add recordB, .add firstA]).GetAssetsByKeyword "x").count 1 = 2 :=
  ⟨by decide, by decide,
    keyword_multiplicity [.add recordB, .add firstA] ⟨1, firstA, []⟩ "x" (by decide)⟩

/-! ## The keys of the keyword index -/

theorem mem_keys_update (idx : KeywordMap) (k : String) (f : List Ptr → List Ptr)
    (k' : String) : k' ∈ (idx.update k f).keys ↔ k' ∈ idx.keys ∨ k' = k := by
  induction idx with
  | nil => simp [KeywordMap.update, KeywordMap.keys]
  | cons e rest ih =>
    obtain ⟨k0, v⟩ := e
    simp only [KeywordMap.keys] at ih
    by_cases h0 : k0 = k
    · subst h0
      simp only [KeywordMap.update, KeywordMap.keys, if_true, List.map_cons, List.mem_cons]
      constructor
      · intro h; exact Or.inl h
      · rintro (h | h)
        · exact h
        · exact Or.inl h
    · simp only [KeywordMap.update, KeywordMap.keys, if_neg h0, List.map_cons, List.mem_cons, ih]
      constructor
      · rintro (h | h | h)
        · exact Or.inl (Or.inl h)
        · exact Or.inl (Or.inr h)
        · exact Or.inr h
      · rintro ((h | h) | h)
        · exact Or.inl h
        · exact Or.inr (Or.inl h)
        · exact Or.inr (Or.inr h)

theorem keys_update_of_mem (idx : KeywordMap) (k : String) (f : List Ptr → List Ptr)
    (h : k ∈ idx.keys) : (idx.update k f).keys = idx.keys := by
  induction idx with
  | nil => simp [KeywordMap.keys] at h
  | cons e rest ih =>
    obtain ⟨k0, v⟩ := e
    by_cases h0 : k0 = k
    · simp [KeywordMap.update, KeywordMap.keys, h0]
    · have hrest : k ∈ KeywordMap.keys rest := by
        simp only [KeywordMap.keys, List.map_cons, List.mem_cons] at h
        rcases h with h | h
        · exact absurd h.symm h0
        · exact h
      have := ih hrest
      simp only [KeywordMap.keys] at this
      simp [KeywordMap.update, KeywordMap.keys, h0, this]

theorem mem_keys_foldl_update (f : List Ptr → List Ptr) (kws : List String) (idx : KeywordMap)
    (k' : String) :
    k' ∈ (kws.foldl (fun i kw => i.update kw f) idx).keys ↔ k' ∈ idx.keys ∨ k' ∈ kws := by
  induction kws generalizing idx with
  | nil => simp
  | cons kw rest ih =>
    rw [List.foldl_cons, ih, mem_keys_update, List.mem_cons]
    constructor
    · rintro ((h | h) | h)
      · exact Or.inl h
      · exact Or.inr (Or.inl h)
      · exact Or.inr (Or.inr h)
    · rintro (h | h | h)
      · exact Or.inl (Or.inl h)
      · exact Or.inl (Or.inr h)
      · exact Or.inr h

theorem keys_foldl_update_of_subset (f : List Ptr → List Ptr) (kws : List String)
    (idx : KeywordMap) (h : ∀ k ∈ kws, k ∈ idx.keys) :
    (kws.foldl (fun i kw => i.update kw f) idx).keys = idx.keys := by
  induction kws generalizing idx with
  | nil => rfl
  | cons kw rest ih =>
    have hkw : kw ∈ idx.keys := h kw (List.mem_cons_self _ _)
    rw [List.foldl_cons, ih, keys_update_of_mem idx kw f hkw]
    intro k hk
    rw [keys_update_of_mem idx kw f hkw]
    exact h k (List.mem_cons_of_mem _ hk)

theorem find_of_mem_keys (idx : KeywordMap) (k : String) (h : k ∈ idx.keys) :
    ∃ b, idx.find k = some b := by
  induction idx with
  | nil => simp [KeywordMap.keys] at h
  | cons e rest ih =>
    obtain ⟨k0, v⟩ := e
    by_cases h0 : k0 = k
    · exact ⟨v, by simp [KeywordMap.find, h0]⟩
    · have hrest : k ∈ KeywordMap.keys rest := by
        simp only [KeywordMap.keys, List.map_cons, List.mem_cons] at h
        rcases h with h | h
        · exact absurd h.symm h0
        · exact h
      obtain ⟨b, hb⟩ := ih hrest
      exact ⟨b, by simp [KeywordMap.find, h0, hb]⟩

theorem mem_keys_addAsset (m : AssetManager) (md : AssetMetadata) (k : String) :
    k ∈ (m.AddAsset md).assetsByKeyword_.keys ↔
      k ∈ m.assetsByKeyword_.keys ∨ k ∈ md.keywords := by
  simp only [AddAsset]
  exact mem_keys_foldl_update (fun b => b ++ [m.nextAddr]) md.keywords m.assetsByKeyword_ k

theorem keys_removeAsset (m : AssetManager) (name : String)
    (hc : ∀ a ∈ m.assets_, ∀ k ∈ a.GetMetadata.keywords, k ∈ m.assetsByKeyword_.keys) :
    (m.RemoveAsset name).assetsByKeyword_.keys = m.assetsByKeyword_.keys := by
  by_cases hex : ∃ a ∈ m.assets_, a.GetMetadata.name = name
  · obtain ⟨l₁, a, l₂, hl, h₁, ha⟩ := split_first name m.assets_ hex
    rw [removeAsset_some m name l₁ a l₂ hl h₁ ha]
    show (purge m.assetsByKeyword_ a).keys = _
    simp only [purge]
    exact keys_foldl_update_of_subset (fun b => b.filter (fun p => p != a.addr)) _ _
      (hc a (by rw [hl]; simp))
  · rw [removeAsset_none m name (fun a ha hn => hex ⟨a, ha, hn⟩)]

theorem keys_runFrom (ops : List Op) (m : AssetManager)
    (hc : ∀ a ∈ m.assets_, ∀ k ∈ a.GetMetadata.keywords, k ∈ m.assetsByKeyword_.keys) :
    (∀ a ∈ (m.runFrom ops).assets_, ∀ k ∈ a.GetMetadata.keywords,
      k ∈ (m.runFrom ops).assetsByKeyword_.keys) ∧
    ∀ k, k ∈ (m.runFrom ops).assetsByKeyword_.keys ↔
      k ∈ m.assetsByKeyword_.keys ∨ k ∈ insertedKeywords ops := by
  induction ops generalizing m with
  | nil => exact ⟨hc, fun k => by simp [runFrom, insertedKeywords]⟩
  | cons op rest ih =>
    cases op with
    | add md =>
      have hc' : ∀ a ∈ (m.AddAsset md).assets_, ∀ k ∈ a.GetMetadata.keywords,
          k ∈ (m.AddAsset md).assetsByKeyword_.keys := by
        intro a ha k hk
        rw [mem_keys_addAsset]
        simp only [AddAsset, List.mem_append, List.mem_singleton] at ha
        rcases ha with ha | rfl
        · exact Or.inl (hc a ha k hk)
        · exact Or.inr hk
      obtain ⟨h1, h2⟩ := ih (m.AddAsset md) hc'
      refine ⟨h1, fun k => ?_⟩
      have := h2 k
      simp only [runFrom, List.foldl_cons, step] at this ⊢
      rw [this, mem_keys_addAsset]
      simp only [insertedKeywords, List.mem_append, or_assoc]
    | remove name =>
      have hkeys := keys_removeAsset m name hc
      have hc' : ∀ a ∈ (m.RemoveAsset name).assets_, ∀ k ∈ a.GetMetadata.keywords,
          k ∈ (m.RemoveAsset name).assetsByKeyword_.keys := by
        intro a ha k hk
        rw [hkeys]
        exact hc a ((removeAsset_assets_sublist m name).subset ha) k hk
      obtain ⟨h1, h2⟩ := ih (m.RemoveAsset name) hc'
      refine ⟨h1, fun k => ?_⟩
      have := h2 k
      simp only [runFrom, List.foldl_cons, step] at this ⊢
      rw [this, hkeys]
      simp only [insertedKeywords]

theorem insertedKeywords_append (ops more : List Op) :
    insertedKeywords (ops ++ more) = insertedKeywords ops ++ insertedKeywords more := by
  induction ops with
  | nil => rfl
  | cons op rest ih =>
    cases op with
    | add md => simp [insertedKeywords, ih]
    | remove name => simp [insertedKeywords, ih]

/-- C17 (buckets are emptied, never deleted): after every sequence of `AddAsset` /
`RemoveAsset` calls on an empty manager, `RemoveAsset name` leaves the keys of the keyword
index unchanged; a keyword that was inserted and that no live record carries any more still
has a bucket, which is empty; the keys only grow when the sequence is continued; and the
keys are exactly the keywords of the records the `AddAsset` calls of the sequence
inserted. -/
theorem buckets_never_deleted (ops : List Op) :
    (∀ name : String, ((run ops).RemoveAsset name).assetsByKeyword_.keys =
      (run ops).assetsByKeyword_.keys) ∧
    (∀ k : String, (∃ md : AssetMetadata, Op.add md ∈ ops ∧ k ∈ md.keywords) →
      (∀ a ∈ (run ops).assets_, k ∉ a.GetMetadata.keywords) →
      (run ops).assetsByKeyword_.find k = some []) ∧
    (∀ (more : List Op) (k : String), k ∈ (run ops).assetsByKeyword_.keys →
      k ∈ (run (ops ++ more)).assetsByKeyword_.keys) ∧
    (∀ k : String, k ∈ (run ops).assetsByKeyword_.keys ↔
      ∃ md : AssetMetadata, Op.add md ∈ ops ∧ k ∈ md.keywords) := by
  have hempty : ∀ a ∈ empty.assets_, ∀ k ∈ a.GetMetadata.keywords,
      k ∈ empty.assetsByKeyword_.keys := by simp [empty]
  have hkeys : ∀ (l : List Op) (k : String), k ∈ (run l).assetsByKeyword_.keys ↔
      ∃ md : AssetMetadata, Op.add md ∈ l ∧ k ∈ md.keywords := by
    intro l k
    rw [← mem_insertedKeywords]
    have := (keys_runFrom l empty hempty).2 k
    simpa [run, empty, KeywordMap.keys] using this
  refine ⟨?_, ?_, ?_, hkeys ops⟩
  · intro name
    exact keys_removeAsset (run ops) name (keys_runFrom ops empty hempty).1
  · intro k hk hno
    obtain ⟨b, hb⟩ := find_of_mem_keys _ k ((hkeys ops k).mpr hk)
    have hbucket := (inv_run ops).index k
    rw [flatMap_entries_eq_nil k _ hno] at hbucket
    simp only [bucket, hb] at hbucket
    rw [hb, hbucket]
  · intro more k hk
    obtain ⟨md, hmd, hkmd⟩ := (hkeys ops k).mp hk
    exact (hkeys (ops ++ more) k).mpr ⟨md, List.mem_append_left _ hmd, hkmd⟩

/-- C17 at a concrete input: "B" is the only record that carries "x"; after its removal the
index still has the key "x", with an empty bucket. -/
theorem buckets_never_deleted_witness :
    (run [.add recordB, .remove "B"]).assets_ = [] ∧
    (run [.add recordB, .remove "B"]).assetsByKeyword_.keys = ["x"] ∧
    (run [.add recordB, .remove "B"]).assetsByKeyword_.find "x" = some [] :=
  ⟨by decide, by decide,
    (buckets_never_deleted [.add recordB, .remove "B"]).2.1 "x"
      ⟨recordB, by simp, by decide⟩ (by decide)⟩

/-! ## The flat database against the manager -/

theorem deref_of_mem (m : AssetManager) (h : Inv m) (a : Asset) (ha : a ∈ m.assets_) :
    m.deref a.addr = some a := by
  have hs := h.sorted
  unfold deref
  generalize m.assets_ = l at ha hs
  induction l with
  | nil => simp at ha
  | cons x rest ih =>
    rw [List.map_cons, List.pairwise_cons] at hs
    by_cases hx : x = a
    · subst hx
      simp [List.find?_cons]
    · have hrest : a ∈ rest := by
        rcases List.mem_cons.mp ha with h' | h'
        · exact absurd h'.symm hx
        · exact h'
      have hne : x.addr ≠ a.addr := Nat.ne_of_lt (hs.1 a.addr (List.mem_map_of_mem _ hrest))
      have hb : (x.addr == a.addr) = false := by simpa using hne
      rw [List.find?_cons, hb]
      exact ih hrest hs.2

theorem deref_some (m : AssetManager) (p : Ptr) (a : Asset) (h : m.deref p = some a) :
    a ∈ m.assets_ ∧ a.addr = p := by
  unfold deref at h
  exact ⟨List.mem_of_find?_eq_some h, by simpa using List.find?_some h⟩

theorem mem_metadataOf (m : AssetManager) (h : Inv m) (ps : List Ptr) (md : AssetMetadata) :
    some md ∈ m.metadataOf ps ↔ ∃ a ∈ m.assets_, a.addr ∈ ps ∧ a.GetMetadata = md := by
  simp only [metadataOf, List.mem_map, Option.map_eq_some']
  constructor
  · rintro ⟨p, hp, a, ha, hmd⟩
    obtain ⟨hmem, haddr⟩ := deref_some m p a ha
    exact ⟨a, hmem, by rw [haddr]; exact hp, hmd⟩
  · rintro ⟨a, ha, hp, hmd⟩
    exact ⟨a.addr, hp, a, deref_of_mem m h a ha, hmd⟩

theorem none_not_mem_metadataOf (m : AssetManager) (h : Inv m) (ps : List Ptr)
    (hlive : ∀ p ∈ ps, ∃ a ∈ m.assets_, a.addr = p) : none ∉ m.metadataOf ps := by
  simp only [metadataOf, List.mem_map, Option.map_eq_none', not_exists, not_and]
  intro p hp hnone
  obtain ⟨a, ha, rfl⟩ := hlive p hp
  rw [deref_of_mem m h a ha] at hnone
  cases hnone

end AssetManager

namespace AssetDatabase

theorem typeLoop_eq (type : AssetType) (l : List (String × AssetMetadata))
    (acc : List AssetMetadata) :
    l.foldl (fun assetsOfType asset =>
        if asset.2.type = type then assetsOfType ++ [asset.2] else assetsOfType) acc =
      acc ++ (l.filter (fun e => decide (e.2.type = type))).map Prod.snd := by
  induction l generalizing acc with
  | nil => simp
  | cons x rest ih =>
    rw [List.foldl_cons, ih]
    by_cases hx : x.2.type = type <;> simp [hx]

theorem keywordLoop_eq (keyword : String) (l : List (String × AssetMetadata))
    (acc : List AssetMetadata) :
    l.foldl (fun assetsWithKeyword asset =>
        if keyword ∈ asset.2.keywords then assetsWithKeyword ++ [asset.2]
        else assetsWithKeyword) acc =
      acc ++ (l.filter (fun e => decide (keyword ∈ e.2.keywords))).map Prod.snd := by
  induction l generalizing acc with
  | nil => simp
  | cons x rest ih =>
    rw [List.foldl_cons, ih]
    by_cases hx : keyword ∈ x.2.keywords <;> simp [hx]

theorem db_mem_getAssetsByType (db : AssetDatabase) (type : AssetType) (md : AssetMetadata) :
    md ∈ db.GetAssetsByType type ↔ (∃ e ∈ db.assets, e.2 = md) ∧ md.type = type := by
  simp only [GetAssetsByType, Multiset.mem_coe, typeLoop_eq, List.nil_append, List.mem_map,
    List.mem_filter, decide_eq_true_eq]
  constructor
  · rintro ⟨e, ⟨he, ht⟩, rfl⟩
    exact ⟨⟨e, he, rfl⟩, ht⟩
  · rintro ⟨⟨e, he, rfl⟩, ht⟩
    exact ⟨e, ⟨he, ht⟩, rfl⟩

theorem db_mem_getAssetsByKeyword (db : AssetDatabase) (keyword : String) (md : AssetMetadata) :
    md ∈ db.GetAssetsByKeyword keyword ↔
      (∃ e ∈ db.assets, e.2 = md) ∧ keyword ∈ md.keywords := by
  simp only [GetAssetsByKeyword, Multiset.mem_coe, keywordLoop_eq, List.nil_append,
    List.mem_map, List.mem_filter, decide_eq_true_eq]
  constructor
  · rintro ⟨e, ⟨he, ht⟩, rfl⟩
    exact ⟨⟨e, he, rfl⟩, ht⟩
  · rintro ⟨⟨e, he, rfl⟩, ht⟩
    exact ⟨e, ⟨he, ht⟩, rfl⟩

end AssetDatabase

namespace AssetManager

theorem filter_entryOf_of_ne (name : String) (l : List Asset)
    (h : ∀ b ∈ l, b.GetMetadata.name ≠ name) :
    (l.map entryOf).filter (fun e => e.1 != name) = l.map entryOf := by
  rw [List.filter_eq_self]
  intro e he
  obtain ⟨b, hb, rfl⟩ := List.mem_map.mp he
  simpa [entryOf] using h b hb

theorem sim_addAsset (m : AssetManager) (db : AssetDatabase) (md : AssetMetadata)
    (hs : db.assets = m.assets_.map entryOf)
    (hfresh : ∀ a ∈ m.assets_, a.GetMetadata.name ≠ md.name) :
    (db.AddAsset md).assets = (m.AddAsset md).assets_.map entryOf := by
  have hany : db.assets.any (fun e => e.1 == md.name) = false := by
    rw [hs, List.any_eq_false]
    intro e he
    obtain ⟨b, hb, rfl⟩ := List.mem_map.mp he
    simpa [entryOf] using hfresh b hb
  have hdb : db.AddAsset md = { assets := db.assets ++ [(md.name, md)] } := by
    unfold AssetDatabase.AddAsset
    rw [hany]
    rfl
  rw [hdb]
  simp [AddAsset, hs, entryOf, Asset.GetMetadata]

theorem sim_removeAsset (m : AssetManager) (db : AssetDatabase) (name : String)
    (hs : db.assets = m.assets_.map entryOf)
    (hn : (m.assets_.map (fun a => a.GetMetadata.name)).Nodup) :
    (db.RemoveAsset name).assets = (m.RemoveAsset name).assets_.map entryOf := by
  by_cases hex : ∃ a ∈ m.assets_, a.GetMetadata.name = name
  · obtain ⟨l₁, a, l₂, hl, h₁, ha⟩ := split_first name m.assets_ hex
    rw [removeAsset_some m name l₁ a l₂ hl h₁ ha]
    rw [hl, List.map_append, List.map_cons, List.nodup_append] at hn
    have h₂ : ∀ b ∈ l₂, b.GetMetadata.name ≠ name := by
      intro b hb hbn
      have := (List.nodup_cons.mp hn.2.1).1
      exact this (by rw [ha, ← hbn]; exact List.mem_map_of_mem _ hb)
    simp only [AssetDatabase.RemoveAsset, hs, hl, List.map_append, List.map_cons,
      List.filter_append, List.filter_cons, filter_entryOf_of_ne name l₁ h₁,
      filter_entryOf_of_ne name l₂ h₂]
    simp [entryOf, ha]
  · have hno : ∀ a ∈ m.assets_, a.GetMetadata.name ≠ name := fun a ha hn' => hex ⟨a, ha, hn'⟩
    rw [removeAsset_none m name hno]
    simp only [AssetDatabase.RemoveAsset, hs, filter_entryOf_of_ne name _ hno]

theorem sim_runFrom (ops : List Op) (m : AssetManager) (db : AssetDatabase)
    (hs : db.assets = m.assets_.map entryOf)
    (hn : (m.assets_.map (fun a => a.GetMetadata.name)).Nodup)
    (hf : freshAdds m ops = true) :
    (db.runFrom ops).assets = (m.runFrom ops).assets_.map entryOf := by
  induction ops generalizing m db with
  | nil => exact hs
  | cons op rest ih =>
    cases op with
    | add md =>
      simp only [freshAdds, Bool.and_eq_true, Option.isNone_iff_eq_none] at hf
      have hfresh : ∀ a ∈ m.assets_, a.GetMetadata.name ≠ md.name := by
        have := hf.1
        simpa only [GetAssetByName, Option.map_eq_none', nameScan_eq_none_iff] using this
      refine ih (m.AddAsset md) (db.AddAsset md) (sim_addAsset m db md hs hfresh) ?_ hf.2
      simp only [AddAsset, List.map_append, List.map_cons, List.map_nil]
      rw [List.nodup_append]
      refine ⟨hn, by simp, ?_⟩
      intro x hx hx'
      obtain ⟨a, ha, rfl⟩ := List.mem_map.mp hx
      exact hfresh a ha (by simpa [Asset.GetMetadata] using hx')
    | remove name =>
      simp only [freshAdds] at hf
      refine ih (m.RemoveAsset name) (db.RemoveAsset name) (sim_removeAsset m db name hs hn)
        ?_ hf
      exact hn.sublist ((removeAsset_assets_sublist m name).map _)

theorem addr_inj (m : AssetManager) (h : Inv m) (a b : Asset) (ha : a ∈ m.assets_)
    (hb : b ∈ m.assets_) (hab : a.addr = b.addr) : a = b := by
  have h1 := deref_of_mem m h a ha
  rw [hab, deref_of_mem m h b hb] at h1
  exact (Option.some.inj h1).symm

theorem mem_getAssetsByType (m : AssetManager) (type : AssetType) (p : Ptr) :
    p ∈ m.GetAssetsByType type ↔
      ∃ a ∈ m.assets_, a.addr = p ∧ a.GetMetadata.type = type := by
  rw [getAssetsByType_eq, List.mem_map]
  constructor
  · rintro ⟨a, ha, rfl⟩
    rw [List.mem_filter] at ha
    exact ⟨a, ha.1, rfl, by simpa using ha.2⟩
  · rintro ⟨a, ha, rfl, ht⟩
    exact ⟨a, List.mem_filter.mpr ⟨ha, by simpa using ht⟩, rfl⟩

theorem sim_run (ops : List Op) (h : freshAdds empty ops = true) :
    (AssetDatabase.run ops).assets = (run ops).assets_.map entryOf :=
  sim_runFrom ops empty AssetDatabase.empty (by simp [empty, AssetDatabase.empty])
    (by simp [empty]) h

/-- C16 (the flat store against the indexed store): for every sequence of `AddAsset` /
`RemoveAsset` calls in which no `AddAsset` uses a name that is present at the time, run on an
empty `AssetDatabase` and on an empty `AssetManager`, for every keyword `k` and type `t`:
every pointer `AssetManager::GetAssetsByKeyword k` returns designates a live record, and a
metadata value is returned by `AssetDatabase::GetAssetsByKeyword k` iff it is the metadata of
one of these records; likewise for `GetAssetsByType t`. -/
theorem flat_store_subsumed (ops : List Op) (h : freshAdds empty ops = true) (k : String)
    (t : AssetType) :
    (none ∉ (run ops).metadataOf ((run ops).GetAssetsByKeyword k) ∧
      ∀ md : AssetMetadata, md ∈ (AssetDatabase.run ops).GetAssetsByKeyword k ↔
        some md ∈ (run ops).metadataOf ((run ops).GetAssetsByKeyword k)) ∧
    (none ∉ (run ops).metadataOf ((run ops).GetAssetsByType t) ∧
      ∀ md : AssetMetadata, md ∈ (AssetDatabase.run ops).GetAssetsByType t ↔
        some md ∈ (run ops).metadataOf ((run ops).GetAssetsByType t)) := by
  have hsim := sim_run ops h
  have hinv := inv_run ops
  refine ⟨⟨?_, ?_⟩, ⟨?_, ?_⟩⟩
  · apply none_not_mem_metadataOf _ hinv
    intro p hp
    obtain ⟨a, ha, hap, _⟩ := (mem_bucket_of_inv _ hinv k p).mp hp
    exact ⟨a, ha, hap⟩
  · intro md
    rw [AssetDatabase.db_mem_getAssetsByKeyword, mem_metadataOf _ hinv, hsim]
    constructor
    · rintro ⟨⟨e, he, rfl⟩, hk⟩
      obtain ⟨a, ha, rfl⟩ := List.mem_map.mp he
      exact ⟨a, ha, (mem_bucket_of_inv _ hinv k a.addr).mpr ⟨a, ha, rfl, hk⟩, rfl⟩
    · rintro ⟨a, ha, hp, rfl⟩
      obtain ⟨b, hb, hba, hk⟩ := (mem_bucket_of_inv _ hinv k a.addr).mp hp
      have hab : b = a := addr_inj _ hinv b a hb ha hba
      subst hab
      exact ⟨⟨entryOf b, List.mem_map_of_mem _ ha, rfl⟩, hk⟩
  · apply none_not_mem_metadataOf _ hinv
    intro p hp
    obtain ⟨a, ha, hap, _⟩ := (mem_getAssetsByType _ t p).mp hp
    exact ⟨a, ha, hap⟩
  · intro md
    rw [AssetDatabase.db_mem_getAssetsByType, mem_metadataOf _ hinv, hsim]
    constructor
    · rintro ⟨⟨e, he, rfl⟩, ht⟩
      obtain ⟨a, ha, rfl⟩ := List.mem_map.mp he
      exact ⟨a, ha, (mem_getAssetsByType _ t a.addr).mpr ⟨a, ha, rfl, ht⟩, rfl⟩
    · rintro ⟨a, ha, hp, rfl⟩
      obtain ⟨b, hb, hba, ht⟩ := (mem_getAssetsByType _ t a.addr).mp hp
      have hab : b = a := addr_inj _ hinv b a hb ha hba
      subst hab
      exact ⟨⟨entryOf b, List.mem_map_of_mem _ ha, rfl⟩, ht⟩

/-- C16 at a concrete input, the scenario of `main` followed by the removal of "Audio1": the
names are pairwise different; for the keyword "game" the manager returns the live records
"Texture1" and "Model1", and the database returns a metadata value iff it is one of theirs. -/
theorem flat_store_subsumed_witness :
    freshAdds empty
      [.add textureMetadata, .add audioMetadata, .add modelMetadata, .remove "Audio1"] = true ∧
    (run [.add textureMetadata, .add audioMetadata, .add modelMetadata, .remove "Audio1"]
      ).metadataOf ((run
        [.add textureMetadata, .add audioMetadata, .add modelMetadata, .remove "Audio1"]
        ).GetAssetsByKeyword "game") = [some textureMetadata, some modelMetadata] ∧
    (none ∉ (run
        [.add textureMetadata, .add audioMetadata, .add modelMetadata, .remove "Audio1"]
        ).metadataOf ((run
          [.add textureMetadata, .add audioMetadata, .add modelMetadata, .remove "Audio1"]
          ).GetAssetsByKeyword "game") ∧
      ∀ md : AssetMetadata,
        md ∈ (AssetDatabase.run
          [.add textureMetadata, .add audioMetadata, .add modelMetadata, .remove "Audio1"]
          ).GetAssetsByKeyword "game" ↔
        some md ∈ (run
          [.add textureMetadata, .add audioMetadata, .add modelMetadata, .remove "Audio1"]
          ).metadataOf ((run
            [.add textureMetadata, .add audioMetadata, .add modelMetadata, .remove "Audio1"]
            ).GetAssetsByKeyword "game")) :=
  ⟨by decide, by decide,
    (flat_store_subsumed
      [.add textureMetadata, .add audioMetadata, .add modelMetadata, .remove "Audio1"]
      (by decide) "game" .Texture).1⟩

end AssetManager

end AssetSystem
